import Mathlib

/-!
# Context-window extraction (`analyze.js`)

A shallow embedding of the segmentation and windowing functions of `analyze.js`
(`buildPrefixAndSuffix`, `extractMessages`, `windowForMessage`, the file name built by
`writeContextFile` and the progress line printed by `main`), followed by the properties
proved about them.

A JavaScript string is a finite sequence of UTF-16 code units; it is modelled as a list of
natural numbers, one per code unit.  Offsets are indices into that list.  A function that can
throw returns `Except String`, the error carrying the message (or `"TypeError"` for a property
read on `undefined`).
-/

namespace Analyze

set_option maxRecDepth 100000

/-! ## Strings -/

/-- A JavaScript string: its UTF-16 code units. -/
abbrev JSString := List Nat

/-- The code units of an ASCII literal of the source. -/
def lit (s : String) : JSString := s.toList.map Char.toNat

/-- `s.slice(a, b)` for non-negative `a`, `b`: the units from offset `a` up to (not including)
offset `b`, both clamped to the length; empty when `b ≤ a`. -/
def slice (s : JSString) (a b : Nat) : JSString := (s.take b).drop a

/-- `s.slice(a)`: everything from offset `a` on. -/
def sliceFrom (s : JSString) (a : Nat) : JSString := s.drop a

/-- The search loop of `indexOf`: `s` is what remains of the string from offset `i` on. -/
def indexOfAux (needle : JSString) : JSString → Nat → Option Nat
  | [], i => if needle.isPrefixOf [] then some i else none
  | c :: cs, i => if needle.isPrefixOf (c :: cs) then some i else indexOfAux needle cs (i + 1)

/-- `s.indexOf(needle, position)`: the least offset `≥ position` (clamped to the length) at
which `needle` occurs, `none` standing for `-1`. -/
def indexOf (s needle : JSString) (position : Nat) : Option Nat :=
  let k := min position s.length
  indexOfAux needle (s.drop k) k

/-- The string `needle` occurs in `s` at offset `i`. -/
def OccursAt (needle s : JSString) (i : Nat) : Prop := needle <+: s.drop i

instance (needle s : JSString) (i : Nat) : Decidable (OccursAt needle s i) := by
  unfold OccursAt; infer_instance

/-- `s.includes(needle)`. -/
def includes (s needle : JSString) : Bool := (indexOf s needle 0).isSome

/-- A code unit in `[0-9]`. -/
def isDigit (c : Nat) : Bool := decide (48 ≤ c) && decide (c ≤ 57)

/-- The decimal digits of a non-negative integer, most significant first, pushed in front of
`acc`; `fuel` bounds the number of digits. -/
def numberToStringAux : Nat → Nat → JSString → JSString
  | 0, _, acc => acc
  | fuel + 1, n, acc =>
    if n / 10 = 0 then (48 + n % 10) :: acc
    else numberToStringAux fuel (n / 10) ((48 + n % 10) :: acc)

/-- The string a template literal renders for a non-negative integer: its decimal digits. -/
def numberToString (n : Nat) : JSString := numberToStringAux (n + 1) n []

/-! ## Configuration and markers -/

/-- The number of messages kept before and after the target. -/
def WINDOW : Nat := 20

/-- The marker opening the chat log container. -/
def chatlogOpen : JSString := lit "<div class=\"chatlog\">"

/-- The marker that ends the chat log. -/
def postamble : JSString := lit "<div class=postamble"

/-- The marker that starts a message. -/
def token : JSString := lit "<div id=chatlog__message-container-"

/-- The literal part of the id pattern `/id=chatlog__message-container-([0-9]+)/`. -/
def idLiteral : JSString := lit "id=chatlog__message-container-"

/-- The substring marking the start of a message group. -/
def groupMarker : JSString := lit "chatlog__message-group"

/-- The substring `hasLitematic` looks for. -/
def litematicMarker : JSString := lit ".litematic"

/-! ## `buildPrefixAndSuffix` -/

/-- The object `buildPrefixAndSuffix` returns. -/
structure Envelope where
  prefix_ : JSString
  suffix : JSString
  chatlogOpenEnd : Nat
  chatlogEnd : Nat
  deriving DecidableEq, Repr

/-- The function `buildPrefixAndSuffix(html)`. -/
def buildPrefixAndSuffix (html : JSString) : Except String Envelope :=
  match indexOf html chatlogOpen 0 with
  | none => .error "Could not find chatlog start in HTML."
  | some chatlogStart =>
    let chatlogOpenEnd := chatlogStart + chatlogOpen.length
    let postambleIndex := indexOf html postamble 0
    let chatlogEnd := match postambleIndex with
      | none => html.length
      | some p => p
    let prefix_ := slice html 0 chatlogOpenEnd
    let suffix := lit "</div>" ++ sliceFrom html chatlogEnd
    .ok { prefix_ := prefix_, suffix := suffix, chatlogOpenEnd := chatlogOpenEnd,
          chatlogEnd := chatlogEnd }

/-! ## `extractMessages` -/

/-- One element of the array `extractMessages` returns (`end_` is the field `end`). -/
structure Message where
  pos : Nat
  end_ : Nat
  snippet : JSString
  id : JSString
  hasGroupOpen : Bool
  hasLitematic : Bool
  deriving DecidableEq, Repr

/-- The `while` loop collecting `starts`: `position` is where the next `indexOf` begins, and
every round moves it at least `token.length` forward, so `fuel = html.length + 1` rounds are
enough. -/
def scanStarts (html : JSString) : Nat → Nat → List Nat
  | 0, _ => []
  | fuel + 1, position =>
    match indexOf html token position with
    | none => []
    | some idx => idx :: scanStarts html fuel (idx + token.length)

/-- An attempt of the id pattern at the start of `s`: the literal, then at least one digit;
the capture is the longest run of digits. -/
def matchIdAt (s : JSString) : Option JSString :=
  if idLiteral.isPrefixOf s then
    let ds := (s.drop idLiteral.length).takeWhile isDigit
    if ds = [] then none else some ds
  else none

/-- The call `snippet.match(/id=chatlog__message-container-([0-9]+)/)`, reduced to its first
capture group: the leftmost offset at which the pattern matches decides. -/
def matchId : JSString → Option JSString
  | [] => none
  | c :: cs =>
    match matchIdAt (c :: cs) with
    | some ds => some ds
    | none => matchId cs

/-- The callback of `starts.map` in `extractMessages`, for the element `pos` at index `i`. -/
def mkMessage (toLowerCase : JSString → JSString) (html : JSString) (starts : List Nat)
    (chatlogEnd : Nat) (pos i : Nat) : Message :=
  let end_ := if i + 1 < starts.length then starts.getD (i + 1) 0 else chatlogEnd
  let snippet := slice html pos end_
  let id := match matchId snippet with
    | some ds => ds
    | none => lit "unknown-" ++ numberToString i
  let hasGroupOpen := includes snippet groupMarker
  let hasLitematic := includes (toLowerCase snippet) litematicMarker
  { pos := pos, end_ := end_, snippet := snippet, id := id, hasGroupOpen := hasGroupOpen,
    hasLitematic := hasLitematic }

/-- The function `extractMessages(html, startSearchAt, chatlogEnd)`; `toLowerCase` stands for
the built-in `String.prototype.toLowerCase`. -/
def extractMessages (toLowerCase : JSString → JSString) (html : JSString)
    (startSearchAt chatlogEnd : Nat) : Except String (List Message) :=
  let starts := scanStarts html (html.length + 1) startSearchAt
  if starts.length = 0 then .error "No messages found in the export."
  else .ok (starts.enum.map fun p => mkMessage toLowerCase html starts chatlogEnd p.2 p.1)

/-! ## `windowForMessage` -/

/-- The object `windowForMessage` returns (`end_` is the field `end`). -/
structure Window where
  sliceStart : Nat
  sliceEnd : Nat
  start : Nat
  end_ : Int
  deriving DecidableEq, Repr

/-- The loop `while (start > 0 && !messages[start].hasGroupOpen) start -= 1`, from the value
of `start` on entry to its value on exit. -/
def alignStart (messages : List Message) : Nat → Except String Nat
  | 0 => .ok 0
  | s + 1 =>
    match messages[s + 1]? with
    | none => .error "TypeError"
    | some m => if !m.hasGroupOpen then alignStart messages s else .ok (s + 1)

/-- The function `windowForMessage(messages, targetIndex, chatlogEnd)`. -/
def windowForMessage (messages : List Message) (targetIndex chatlogEnd : Nat) :
    Except String Window :=
  let start0 : Int := max 0 ((targetIndex : Int) - WINDOW)
  let end_ : Int := min ((messages.length : Int) - 1) ((targetIndex : Int) + WINDOW)
  match alignStart messages start0.toNat with
  | .error e => .error e
  | .ok start =>
    match messages[start]? with
    | none => .error "TypeError"
    | some first =>
      if end_ + 1 < messages.length then
        match messages[(end_ + 1).toNat]? with
        | none => .error "TypeError"
        | some next =>
          .ok { sliceStart := first.pos, sliceEnd := next.pos, start := start, end_ := end_ }
      else
        .ok { sliceStart := first.pos, sliceEnd := chatlogEnd, start := start, end_ := end_ }

/-! ## `writeContextFile` and the progress line of `main` -/

/-- The name `writeContextFile` gives the file of the match at position `index` of `matches`:
the template literal in its `filename` constant. -/
def filename (index : Nat) (matchId : JSString) : JSString :=
  lit "context-" ++ numberToString (index + 1) ++ lit "-" ++ matchId ++ lit ".html"

/-- The range `main` prints in `messages ${start + 1}-${end + 1} of ${messages.length}`. -/
def reportedRange (w : Window) (messages : List Message) : Int × Int × Nat :=
  ((w.start : Int) + 1, w.end_ + 1, messages.length)


/-- The number a string of decimal digits denotes. -/
def decimalValue (s : JSString) : Nat := s.foldl (fun v c => 10 * v + (c - 48)) 0

/-- The id pattern matches in `s` at offset `k`: the literal occurs there and a digit follows
it. -/
def MatchesIdAt (s : JSString) (k : Nat) : Prop :=
  OccursAt idLiteral s k ∧ ∃ c, s[k + idLiteral.length]? = some c ∧ isDigit c = true

/-! ## Sample inputs -/

/-- A record array for the window examples: `n` records of forty units each, record `i`
opening a group when `group i`. -/
def sampleMessages (n : Nat) (group : Nat → Bool) : List Message :=
  (List.range n).map fun i =>
    { pos := 21 + 40 * i, end_ := 21 + 40 * (i + 1), snippet := [], id := numberToString i,
      hasGroupOpen := group i, hasLitematic := false }

/-- A document in which the end marker comes before the chat log container. -/
def postambleFirstDoc : JSString :=
  lit "<div class=postamble></div><div class=\"chatlog\"></div>"

/-- A small export: a chat log holding the text `hello`, followed by a postamble. -/
def helloDoc : JSString :=
  lit "<html><div class=\"chatlog\">hello<div class=postamble>bye</div></html>"

/-- The ASCII part of `toLowerCase`: the sample documents are ASCII. -/
def asciiToLowerCase (s : JSString) : JSString :=
  s.map fun c => if 65 ≤ c ∧ c ≤ 90 then c + 32 else c

/-- An export with one message in the chat log and a message marker inside the postamble. -/
def strayMarkerDoc : JSString :=
  lit ("<div class=\"chatlog\"><div id=chatlog__message-container-12>hi</div></div>"
    ++ "<div class=postamble><div id=chatlog__message-container-7>x</div></div>")

/-- An export whose chat log is empty and whose postamble holds a message marker. -/
def emptyChatlogDoc : JSString :=
  lit ("<div class=\"chatlog\"></div>"
    ++ "<div class=postamble><div id=chatlog__message-container-7>x</div></div>")

/-- An export with two messages in the chat log, followed by a postamble. -/
def helloMessagesDoc : JSString :=
  lit ("<div class=\"chatlog\"><div id=chatlog__message-container-12>hi</div>"
    ++ "<div id=chatlog__message-container-13>a.Litematic</div></div>"
    ++ "<div class=postamble>bye</div>")

/-- The descriptors of the two messages of `helloMessagesDoc`. -/
def helloMessages : List Message :=
  [{ pos := 21, end_ := 67,
     snippet := lit "<div id=chatlog__message-container-12>hi</div>",
     id := lit "12", hasGroupOpen := false, hasLitematic := false },
   { pos := 67, end_ := 128,
     snippet := lit "<div id=chatlog__message-container-13>a.Litematic</div></div>",
     id := lit "13", hasGroupOpen := false, hasLitematic := true }]

/-- The descriptors `extractMessages` returns for `strayMarkerDoc`. -/
def strayMessages : List Message :=
  [{ pos := 21, end_ := 94,
     snippet := lit ("<div id=chatlog__message-container-12>hi</div></div>"
       ++ "<div class=postamble>"),
     id := lit "12", hasGroupOpen := false, hasLitematic := false },
   { pos := 94, end_ := 73, snippet := [], id := lit "unknown-1", hasGroupOpen := false,
     hasLitematic := false }]

/-- An export whose first message has a marker without digits and mentions another message's
id further on, and whose postamble holds a well-formed marker. -/
def malformedIdDoc : JSString :=
  lit ("<div class=\"chatlog\"><div id=chatlog__message-container-x>"
    ++ "<a href=\"#id=chatlog__message-container-42\">up</a></div></div>"
    ++ "<div class=postamble><div id=chatlog__message-container-7>x</div></div>")

/-! # Properties

## Searching -/

theorem occursAt_length_le {needle s : JSString} {i : Nat} (hne : needle ≠ [])
    (h : OccursAt needle s i) : i + needle.length ≤ s.length := by
  have h1 := h.length_le
  rw [List.length_drop] at h1
  have h2 : 0 < needle.length := List.length_pos.mpr hne
  omega

theorem indexOfAux_some {needle : JSString} :
    ∀ (s : JSString) (i k : Nat), indexOfAux needle s i = some k →
      ∃ d, k = i + d ∧ needle <+: s.drop d ∧ ∀ j, j < d → ¬ needle <+: s.drop j := by
  intro s
  induction s with
  | nil =>
    intro i k h
    simp only [indexOfAux] at h
    split at h
    · rename_i hp
      refine ⟨0, ?_, ?_, ?_⟩
      · simp at h; omega
      · simpa using List.isPrefixOf_iff_prefix.mp hp
      · intro j hj; omega
    · simp at h
  | cons c cs ih =>
    intro i k h
    simp only [indexOfAux] at h
    split at h
    · rename_i hp
      refine ⟨0, ?_, ?_, ?_⟩
      · simp at h; omega
      · simpa using List.isPrefixOf_iff_prefix.mp hp
      · intro j hj; omega
    · rename_i hp
      obtain ⟨d, hk, hd, hmin⟩ := ih (i + 1) k h
      refine ⟨d + 1, by omega, by simpa using hd, ?_⟩
      intro j hj
      cases j with
      | zero =>
        intro hpre
        exact hp (List.isPrefixOf_iff_prefix.mpr (by simpa using hpre))
      | succ j =>
        have := hmin j (by omega)
        simpa using this

theorem indexOfAux_none {needle : JSString} :
    ∀ (s : JSString) (i : Nat), indexOfAux needle s i = none →
      ∀ j, ¬ needle <+: s.drop j := by
  intro s
  induction s with
  | nil =>
    intro i h j
    simp only [indexOfAux] at h
    split at h
    · simp at h
    · rename_i hp
      intro hpre
      exact hp (List.isPrefixOf_iff_prefix.mpr (by simpa using hpre))
  | cons c cs ih =>
    intro i h j
    simp only [indexOfAux] at h
    split at h
    · simp at h
    · rename_i hp
      cases j with
      | zero =>
        intro hpre
        exact hp (List.isPrefixOf_iff_prefix.mpr (by simpa using hpre))
      | succ j =>
        have := ih (i + 1) h j
        simpa using this

/-- What `indexOf` finds: the first occurrence at or after `position`. -/
theorem indexOf_some {s needle : JSString} {position k : Nat} (hne : needle ≠ [])
    (h : indexOf s needle position = some k) :
    position ≤ k ∧ OccursAt needle s k ∧ k + needle.length ≤ s.length ∧
      ∀ j, position ≤ j → j < k → ¬ OccursAt needle s j := by
  unfold indexOf at h
  obtain ⟨d, hk, hd, hmin⟩ := indexOfAux_some _ _ _ h
  rw [List.drop_drop] at hd
  have hocc : OccursAt needle s k := by
    unfold OccursAt
    have e : k = min position s.length + d := by omega
    rw [e]; exact hd
  have hlen := occursAt_length_le hne hocc
  have hpos : 0 < needle.length := List.length_pos.mpr hne
  have hmn : min position s.length = position := by
    rcases Nat.le_total position s.length with hle | hle
    · exact Nat.min_eq_left hle
    · rw [Nat.min_eq_right hle] at hk; omega
  rw [hmn] at hk hmin
  refine ⟨by omega, hocc, hlen, ?_⟩
  intro j hj1 hj2 hoc
  apply hmin (j - position) (by omega)
  rw [List.drop_drop]
  have e : position + (j - position) = j := by omega
  rw [e]; exact hoc

/-- When `indexOf` answers `-1` there is no occurrence at or after `position`. -/
theorem indexOf_none {s needle : JSString} {position : Nat} (hne : needle ≠ [])
    (h : indexOf s needle position = none) :
    ∀ j, position ≤ j → ¬ OccursAt needle s j := by
  unfold indexOf at h
  intro j hj hoc
  have hlen := occursAt_length_le hne hoc
  have hpos : 0 < needle.length := List.length_pos.mpr hne
  have hmn : min position s.length = position := Nat.min_eq_left (by omega)
  rw [hmn] at h
  apply indexOfAux_none _ _ h (j - position)
  rw [List.drop_drop]
  have e : position + (j - position) = j := by omega
  rw [e]; exact hoc


theorem occursAt_getElem? {needle s : JSString} {i k : Nat} (h : OccursAt needle s i)
    (hk : k < needle.length) : s[i + k]? = needle[k]? := by
  obtain ⟨t, ht⟩ := h
  have h1 : (s.drop i)[k]? = (needle ++ t)[k]? := by rw [ht]
  rw [List.getElem?_drop, List.getElem?_append_left hk] at h1
  exact h1

/-! ## The markers -/

theorem token_ne_nil : token ≠ [] := by decide

theorem token_length : token.length = 35 := by decide

theorem chatlogOpen_ne_nil : chatlogOpen ≠ [] := by decide

theorem chatlogOpen_length : chatlogOpen.length = 21 := by decide

theorem postamble_ne_nil : postamble ≠ [] := by decide

/-- The unit `<` opens the message marker and appears nowhere else in it. -/
theorem token_head_unique : ∀ k < token.length, 0 < k → token[k]? ≠ token[0]? := by decide

/-- Two occurrences of the message marker never overlap. -/
theorem token_no_overlap {s : JSString} {i j : Nat} (hi : OccursAt token s i)
    (hj : OccursAt token s j) (hij : i < j) : i + token.length ≤ j := by
  by_contra hlt
  have hk : j - i < token.length := by omega
  have h1 := occursAt_getElem? hi hk
  have h2 := occursAt_getElem? hj (show 0 < token.length by rw [token_length]; omega)
  have e : i + (j - i) = j := by omega
  rw [e] at h1
  rw [Nat.add_zero] at h2
  exact token_head_unique (j - i) hk (by omega) (h1.symm.trans h2)

/-! ## The scan for message starts -/

/-- Every start the scan collects is an occurrence of the marker at or after `position`. -/
theorem scanStarts_sound (html : JSString) :
    ∀ (fuel position p : Nat), p ∈ scanStarts html fuel position →
      position ≤ p ∧ OccursAt token html p := by
  intro fuel
  induction fuel with
  | zero => intro position p h; simp [scanStarts] at h
  | succ fuel ih =>
    intro position p h
    simp only [scanStarts] at h
    split at h
    · simp at h
    · rename_i idx hidx
      obtain ⟨h1, h2, _, _⟩ := indexOf_some token_ne_nil hidx
      rcases List.mem_cons.mp h with rfl | h
      · exact ⟨h1, h2⟩
      · obtain ⟨h3, h4⟩ := ih _ _ h
        exact ⟨by omega, h4⟩

/-- The starts come out in strictly increasing order. -/
theorem scanStarts_pairwise (html : JSString) :
    ∀ (fuel position : Nat), (scanStarts html fuel position).Pairwise (· < ·) := by
  intro fuel
  induction fuel with
  | zero => intro position; simp [scanStarts]
  | succ fuel ih =>
    intro position
    simp only [scanStarts]
    split
    · simp
    · rename_i idx hidx
      refine List.pairwise_cons.mpr ⟨?_, ih _⟩
      intro q hq
      have := (scanStarts_sound html _ _ _ hq).1
      rw [token_length] at this
      omega

/-- With enough rounds the scan misses no occurrence of the marker at or after `position`. -/
theorem scanStarts_complete (html : JSString) :
    ∀ (fuel position : Nat), html.length < position + fuel →
      ∀ q, position ≤ q → OccursAt token html q → q ∈ scanStarts html fuel position := by
  intro fuel
  induction fuel with
  | zero =>
    intro position hf q hq hocc
    have := occursAt_length_le token_ne_nil hocc
    omega
  | succ fuel ih =>
    intro position hf q hq hocc
    simp only [scanStarts]
    split
    · rename_i hnone
      exact absurd hocc (indexOf_none token_ne_nil hnone q hq)
    · rename_i idx hidx
      obtain ⟨h1, h2, _, h4⟩ := indexOf_some token_ne_nil hidx
      have hle : idx ≤ q := by
        by_contra hlt
        exact h4 q hq (by omega) hocc
      rcases Nat.eq_or_lt_of_le hle with rfl | hlt
      · exact List.mem_cons_self _ _
      · have := token_no_overlap h2 hocc hlt
        have hl := token_length
        exact List.mem_cons_of_mem _ (ih _ (by omega) q this hocc)

/-- The starts `extractMessages` works with are exactly the offsets at or after
`startSearchAt` at which the marker occurs. -/
theorem mem_scanStarts_iff (html : JSString) (startSearchAt q : Nat) :
    q ∈ scanStarts html (html.length + 1) startSearchAt ↔
      startSearchAt ≤ q ∧ OccursAt token html q :=
  ⟨scanStarts_sound html _ _ q,
   fun h => scanStarts_complete html _ _ (by omega) q h.1 h.2⟩


/-! ## The window -/

/-- The alignment loop, entered inside the array, ends at the nearest index at or below its
entry value that is `0` or starts a group. -/
theorem alignStart_spec (messages : List Message) :
    ∀ s, s < messages.length →
      ∃ r, alignStart messages s = .ok r ∧ r ≤ s ∧
        (r = 0 ∨ ∃ m, messages[r]? = some m ∧ m.hasGroupOpen = true) ∧
        ∀ j, r < j → j ≤ s → ∃ m, messages[j]? = some m ∧ m.hasGroupOpen = false := by
  intro s
  induction s with
  | zero =>
    intro _
    exact ⟨0, rfl, Nat.le_refl _, Or.inl rfl, fun j h1 h2 => by omega⟩
  | succ s ih =>
    intro hs
    have hget : messages[s + 1]? = some messages[s + 1] := List.getElem?_eq_getElem hs
    simp only [alignStart, hget]
    cases hg : messages[s + 1].hasGroupOpen with
    | true =>
      refine ⟨s + 1, by simp, Nat.le_refl _, Or.inr ⟨_, hget, hg⟩, fun j h1 h2 => by omega⟩
    | false =>
      obtain ⟨r, h1, h2, h3, h4⟩ := ih (by omega)
      refine ⟨r, by simpa using h1, by omega, h3, ?_⟩
      intro j hj1 hj2
      rcases Nat.eq_or_lt_of_le hj2 with rfl | hlt
      · exact ⟨_, hget, hg⟩
      · exact h4 j hj1 (by omega)

/-- For a target inside the array `windowForMessage` returns, and this is what it returns. -/
theorem windowForMessage_ok (messages : List Message) (t chatlogEnd : Nat)
    (ht : t < messages.length) :
    ∃ w first, windowForMessage messages t chatlogEnd = .ok w ∧
      alignStart messages (t - WINDOW) = .ok w.start ∧
      messages[w.start]? = some first ∧ w.sliceStart = first.pos ∧
      w.end_ = min ((messages.length : Int) - 1) ((t : Int) + WINDOW) ∧
      (t + WINDOW + 1 < messages.length →
        ∃ next, messages[t + WINDOW + 1]? = some next ∧ w.sliceEnd = next.pos) ∧
      (¬ t + WINDOW + 1 < messages.length → w.sliceEnd = chatlogEnd) := by
  obtain ⟨r, h1, h2, _, _⟩ := alignStart_spec messages (t - WINDOW) (by omega)
  have hr : r < messages.length := by omega
  have hget : messages[r]? = some messages[r] := List.getElem?_eq_getElem hr
  have hs0 : (max (0 : Int) ((t : Int) - WINDOW)).toNat = t - WINDOW := by omega
  by_cases hc : t + WINDOW + 1 < messages.length
  · have hmin : min ((messages.length : Int) - 1) ((t : Int) + WINDOW) = (t : Int) + WINDOW := by
      omega
    have hidx : ((t : Int) + WINDOW + 1).toNat = t + WINDOW + 1 := by omega
    have hget2 : messages[t + WINDOW + 1]? = some messages[t + WINDOW + 1] :=
      List.getElem?_eq_getElem hc
    have hlt : (t : Int) + WINDOW + 1 < messages.length := by omega
    refine ⟨⟨messages[r].pos, messages[t + WINDOW + 1].pos, r, (t : Int) + WINDOW⟩,
      messages[r], ?_, h1, hget, rfl, hmin.symm, fun _ => ⟨_, hget2, rfl⟩,
      fun h => absurd hc h⟩
    simp only [windowForMessage, hs0, h1, hget, hmin, hlt, if_true, hidx, hget2]
  · have hmin : min ((messages.length : Int) - 1) ((t : Int) + WINDOW)
        = (messages.length : Int) - 1 := by omega
    have hlt : ¬ ((messages.length : Int) - 1 + 1 < messages.length) := by omega
    refine ⟨⟨messages[r].pos, chatlogEnd, r, (messages.length : Int) - 1⟩,
      messages[r], ?_, h1, hget, rfl, hmin.symm, fun h => absurd h hc, fun _ => rfl⟩
    simp only [windowForMessage, hs0, h1, hget, hmin, hlt, if_false]


/-- C3: for a record array (non-empty, as it has a target) and a target index in range, `windowForMessage` returns,
and the start index it returns is `0` or the index of a record whose `hasGroupOpen` is true. -/
theorem windowForMessage_start_aligned (messages : List Message) (t chatlogEnd : Nat)
    (ht : t < messages.length) :
    ∃ w, windowForMessage messages t chatlogEnd = .ok w ∧
      (w.start = 0 ∨ ∃ m, messages[w.start]? = some m ∧ m.hasGroupOpen = true) := by
  obtain ⟨w, first, h1, h2, _⟩ := windowForMessage_ok messages t chatlogEnd ht
  obtain ⟨r, h3, _, h4, _⟩ := alignStart_spec messages (t - WINDOW) (by omega)
  rw [h2] at h3
  cases h3
  exact ⟨w, h1, h4⟩

theorem windowForMessage_start_aligned_witness :
    30 < (sampleMessages 50 (fun i => i % 7 == 0)).length ∧
    ∃ w, windowForMessage (sampleMessages 50 (fun i => i % 7 == 0)) 30 2021 = .ok w ∧
      (w.start = 0 ∨ ∃ m, (sampleMessages 50 (fun i => i % 7 == 0))[w.start]? = some m ∧
        m.hasGroupOpen = true) :=
  ⟨by decide,
   windowForMessage_start_aligned (sampleMessages 50 (fun i => i % 7 == 0)) 30 2021
     (by decide)⟩

/-- C4: for a target index in range `windowForMessage` returns `end = min(len-1, t+WINDOW)`
and, as `start`, the greatest index `j ≤ max(0, t-WINDOW)` with `j = 0` or
`messages[j].hasGroupOpen`, so that `start ≤ t ≤ end`; with 50 records, `t = 25`, records 5
and 4 not opening a group and record 3 opening one, it returns `start = 3` and `end = 45`,
which `main` reports as messages 4-46 of 50. -/
theorem windowForMessage_range (messages : List Message) (t chatlogEnd : Nat)
    (ht : t < messages.length) :
    ∃ w, windowForMessage messages t chatlogEnd = .ok w ∧
      w.end_ = min ((messages.length : Int) - 1) ((t : Int) + WINDOW) ∧
      (w.start : Int) ≤ max 0 ((t : Int) - WINDOW) ∧
      (w.start = 0 ∨ ∃ m, messages[w.start]? = some m ∧ m.hasGroupOpen = true) ∧
      (∀ j : Nat, w.start < j → (j : Int) ≤ max 0 ((t : Int) - WINDOW) →
        j ≠ 0 ∧ ∃ m, messages[j]? = some m ∧ m.hasGroupOpen = false) ∧
      w.start ≤ t ∧ (t : Int) ≤ w.end_ ∧
      (messages.length = 50 → t = 25 →
        messages[5]?.map (fun m => m.hasGroupOpen) = some false →
        messages[4]?.map (fun m => m.hasGroupOpen) = some false →
        messages[3]?.map (fun m => m.hasGroupOpen) = some true →
        w.start = 3 ∧ w.end_ = 45 ∧ reportedRange w messages = (4, 46, 50)) := by
  obtain ⟨w, first, h1, h2, -, -, h5, -, -⟩ := windowForMessage_ok messages t chatlogEnd ht
  obtain ⟨r, h3, hle, hal, hmax⟩ := alignStart_spec messages (t - WINDOW) (by omega)
  rw [h2] at h3
  cases h3
  have hW : WINDOW = 20 := rfl
  refine ⟨w, h1, h5, by omega, hal, ?_, by omega, by omega, ?_⟩
  · intro j hj1 hj2
    exact ⟨by omega, hmax j hj1 (by omega)⟩
  · intro hlen ht25 h5f h4f h3t
    subst ht25
    have hs : w.start = 3 := by
      rcases Nat.lt_or_ge 3 w.start with hgt | hge
      · -- the loop left `start` at 4 or 5, both of which it must have passed
        have h45 : w.start = 4 ∨ w.start = 5 := by omega
        rcases hal with h0 | ⟨m, hm, hg⟩
        · omega
        · rcases h45 with e | e <;> rw [e] at hm <;> simp [hm, hg] at h4f h5f
      · rcases Nat.eq_or_lt_of_le hge with e | hlt
        · exact e
        · obtain ⟨m, hm, hg⟩ := hmax 3 hlt (by omega)
          simp [hm, hg] at h3t
    have he : w.end_ = 45 := by omega
    refine ⟨hs, he, ?_⟩
    simp [reportedRange, hs, he, hlen]

theorem windowForMessage_range_witness :
    25 < (sampleMessages 50 (fun i => i == 3 || i == 20)).length ∧
    windowForMessage (sampleMessages 50 (fun i => i == 3 || i == 20)) 25 2021
      = .ok { sliceStart := 141, sliceEnd := 1861, start := 3, end_ := 45 } ∧
    ∃ w, windowForMessage (sampleMessages 50 (fun i => i == 3 || i == 20)) 25 2021 = .ok w ∧
      w.start = 3 ∧ w.end_ = 45 ∧
      reportedRange w (sampleMessages 50 (fun i => i == 3 || i == 20)) = (4, 46, 50) := by
  refine ⟨by decide, rfl, ?_⟩
  obtain ⟨w, h1, -, -, -, -, -, -, h8⟩ :=
    windowForMessage_range (sampleMessages 50 (fun i => i == 3 || i == 20)) 25 2021 (by decide)
  exact ⟨w, h1, h8 (by decide) rfl (by decide) (by decide) (by decide)⟩

/-- C6, counterexample: forty records are fewer than `2*WINDOW+1 = 41`, yet for the target
`0` the window ends at record 20, not at the last record 39. -/
theorem windowForMessage_short_counterexample :
    1 ≤ (sampleMessages 40 (fun _ => true)).length ∧
    (sampleMessages 40 (fun _ => true)).length < 2 * WINDOW + 1 ∧
    0 < (sampleMessages 40 (fun _ => true)).length ∧
    windowForMessage (sampleMessages 40 (fun _ => true)) 0 1621
      = .ok { sliceStart := 21, sliceEnd := 861, start := 0, end_ := 20 } ∧
    ¬ ∃ w, windowForMessage (sampleMessages 40 (fun _ => true)) 0 1621 = .ok w ∧
      w.start = 0 ∧ w.end_ = ((sampleMessages 40 (fun _ => true)).length : Int) - 1 := by
  have h : windowForMessage (sampleMessages 40 (fun _ => true)) 0 1621
      = .ok { sliceStart := 21, sliceEnd := 861, start := 0, end_ := 20 } := rfl
  refine ⟨by decide, by decide, by decide, h, ?_⟩
  rintro ⟨w, hw, -, he⟩
  rw [h] at hw
  cases hw
  revert he
  decide

/-- C6, as amended: for a target index `t` in range with `t ≤ WINDOW` and
`len - 1 ≤ t + WINDOW` (every target when `len ≤ WINDOW + 1`) `windowForMessage` returns the
window covering the entire array: `start = 0`, `end = len - 1`, from the first record's
offset to `chatlogEnd`. -/
theorem windowForMessage_whole (messages : List Message) (t chatlogEnd : Nat)
    (ht : t < messages.length) (hlo : t ≤ WINDOW) (hhi : messages.length - 1 ≤ t + WINDOW) :
    ∃ w, windowForMessage messages t chatlogEnd = .ok w ∧
      w.start = 0 ∧ w.end_ = (messages.length : Int) - 1 ∧
      messages[0]?.map (fun m => m.pos) = some w.sliceStart ∧ w.sliceEnd = chatlogEnd := by
  obtain ⟨w, first, h1, h2, h3, h4, h5, -, h7⟩ := windowForMessage_ok messages t chatlogEnd ht
  obtain ⟨r, h8, hle, -, -⟩ := alignStart_spec messages (t - WINDOW) (by omega)
  rw [h2] at h8
  cases h8
  have hs : w.start = 0 := by omega
  rw [hs] at h3
  refine ⟨w, h1, hs, by omega, by simp [h3, h4], h7 (by omega)⟩

theorem windowForMessage_whole_witness :
    20 < (sampleMessages 40 (fun _ => true)).length ∧ 20 ≤ WINDOW ∧
    (sampleMessages 40 (fun _ => true)).length - 1 ≤ 20 + WINDOW ∧
    ∃ w, windowForMessage (sampleMessages 40 (fun _ => true)) 20 1621 = .ok w ∧
      w.start = 0 ∧ w.end_ = ((sampleMessages 40 (fun _ => true)).length : Int) - 1 ∧
      (sampleMessages 40 (fun _ => true))[0]?.map (fun m => m.pos) = some w.sliceStart ∧
      w.sliceEnd = 1621 :=
  ⟨by decide, by decide, by decide,
   windowForMessage_whole (sampleMessages 40 (fun _ => true)) 20 1621
     (by decide) (by decide) (by decide)⟩

/-! ## The envelope -/

theorem postamble_length : postamble.length = 20 := by decide

/-- The unit `<`, with which the end marker begins, appears in the container-open marker only
at its start. -/
theorem chatlogOpen_head_unique :
    ∀ k < chatlogOpen.length, 0 < k → chatlogOpen[k]? ≠ postamble[0]? := by decide

/-- The two markers differ at offset 11 (`"` against `p`). -/
theorem chatlogOpen_postamble_differ : chatlogOpen[11]? ≠ postamble[11]? := by decide

/-- The end marker cannot begin inside an occurrence of the container-open marker. -/
theorem postamble_not_inside_chatlogOpen {s : JSString} {i p : Nat}
    (hi : OccursAt chatlogOpen s i) (hp : OccursAt postamble s p) (h1 : i ≤ p) :
    i + chatlogOpen.length ≤ p := by
  by_contra hlt
  have hl := chatlogOpen_length
  have hl2 := postamble_length
  rcases Nat.eq_or_lt_of_le h1 with rfl | hlt2
  · have a := occursAt_getElem? hi (show 11 < chatlogOpen.length by omega)
    have b := occursAt_getElem? hp (show 11 < postamble.length by omega)
    exact chatlogOpen_postamble_differ (a.symm.trans b)
  · have hk : p - i < chatlogOpen.length := by omega
    have a := occursAt_getElem? hi hk
    have b := occursAt_getElem? hp (show 0 < postamble.length by omega)
    have e : i + (p - i) = p := by omega
    rw [e] at a
    rw [Nat.add_zero] at b
    exact chatlogOpen_head_unique (p - i) hk (by omega) (a.symm.trans b)

/-- What `buildPrefixAndSuffix` returns, in terms of the two searches it makes. -/
theorem buildPrefixAndSuffix_ok {html : JSString} {env : Envelope}
    (hb : buildPrefixAndSuffix html = .ok env) :
    ∃ chatlogStart, indexOf html chatlogOpen 0 = some chatlogStart ∧
      env.chatlogOpenEnd = chatlogStart + chatlogOpen.length ∧
      env.chatlogEnd = (indexOf html postamble 0).getD html.length ∧
      env.prefix_ = slice html 0 env.chatlogOpenEnd ∧
      env.suffix = lit "</div>" ++ sliceFrom html env.chatlogEnd := by
  unfold buildPrefixAndSuffix at hb
  split at hb
  · cases hb
  · rename_i cs hcs
    cases hb
    refine ⟨cs, hcs, rfl, ?_, rfl, rfl⟩
    cases indexOf html postamble 0 <;> rfl

/-- C7, counterexample: the end marker occurs only before the container-open marker, so no
occurrence follows the container-open marker; `chatlogEnd` is nevertheless `0`, not
`html.length = 54`, and `chatlogOpenEnd = 48` exceeds it. -/
theorem buildPrefixAndSuffix_chatlogEnd_counterexample :
    buildPrefixAndSuffix postambleFirstDoc
      = .ok { prefix_ := lit "<div class=postamble></div><div class=\"chatlog\">",
              suffix := lit "</div>" ++ postambleFirstDoc,
              chatlogOpenEnd := 48, chatlogEnd := 0 } ∧
    OccursAt chatlogOpen postambleFirstDoc 27 ∧
    (∀ p < postambleFirstDoc.length, 27 ≤ p → ¬ OccursAt postamble postambleFirstDoc p) ∧
    (0 : Nat) ≠ postambleFirstDoc.length ∧ ¬ (48 ≤ 0) := by
  refine ⟨rfl, by decide, by decide, by decide, by decide⟩

/-- C7, as amended: for a document containing the container-open marker
`buildPrefixAndSuffix` returns; `chatlogOpenEnd` is the end of the first container-open
marker; `chatlogEnd` is the offset of the first occurrence of the end marker anywhere in the
document (the search starts at offset 0), or `html.length` when the document has none; and
`chatlogOpenEnd ≤ chatlogEnd` holds exactly when no end marker occurs before the
container-open marker. -/
theorem buildPrefixAndSuffix_chatlogEnd (html : JSString)
    (hopen : ∃ i, OccursAt chatlogOpen html i) :
    ∃ env chatlogStart, buildPrefixAndSuffix html = .ok env ∧
      (OccursAt chatlogOpen html chatlogStart ∧
        ∀ q < chatlogStart, ¬ OccursAt chatlogOpen html q) ∧
      env.chatlogOpenEnd = chatlogStart + chatlogOpen.length ∧
      ((OccursAt postamble html env.chatlogEnd ∧
          ∀ q < env.chatlogEnd, ¬ OccursAt postamble html q) ∨
        (env.chatlogEnd = html.length ∧ ∀ q, ¬ OccursAt postamble html q)) ∧
      (env.chatlogOpenEnd ≤ env.chatlogEnd ↔
        ∀ q < chatlogStart, ¬ OccursAt postamble html q) := by
  obtain ⟨i, hi⟩ := hopen
  cases hcs : indexOf html chatlogOpen 0 with
  | none => exact absurd hi (indexOf_none chatlogOpen_ne_nil hcs i (Nat.zero_le _))
  | some cs =>
    obtain ⟨-, hocc, hlen, hmin⟩ := indexOf_some chatlogOpen_ne_nil hcs
    have hl := chatlogOpen_length
    cases hp : indexOf html postamble 0 with
    | none =>
      have hno := indexOf_none postamble_ne_nil hp
      refine ⟨⟨slice html 0 (cs + chatlogOpen.length),
        lit "</div>" ++ sliceFrom html html.length, cs + chatlogOpen.length, html.length⟩,
        cs, ?_, ⟨hocc, fun q hq => hmin q (Nat.zero_le _) hq⟩, rfl,
        Or.inr ⟨rfl, fun q => hno q (Nat.zero_le _)⟩, ?_⟩
      · simp only [buildPrefixAndSuffix, hcs, hp]
      · exact ⟨fun _ q _ => hno q (Nat.zero_le _), fun _ => hlen⟩
    | some p =>
      obtain ⟨-, hpocc, -, hpmin⟩ := indexOf_some postamble_ne_nil hp
      refine ⟨⟨slice html 0 (cs + chatlogOpen.length),
        lit "</div>" ++ sliceFrom html p, cs + chatlogOpen.length, p⟩,
        cs, ?_, ⟨hocc, fun q hq => hmin q (Nat.zero_le _) hq⟩, rfl,
        Or.inl ⟨hpocc, fun q hq => hpmin q (Nat.zero_le _) hq⟩, ?_⟩
      · simp only [buildPrefixAndSuffix, hcs, hp]
      · constructor
        · intro hle q hq hqocc
          have h1 : cs + chatlogOpen.length ≤ p := hle
          exact hpmin q (Nat.zero_le _) (by omega) hqocc
        · intro hnone
          have hge : cs ≤ p := by
            by_contra hlt
            exact hnone p (by omega) hpocc
          exact postamble_not_inside_chatlogOpen hocc hpocc hge

theorem buildPrefixAndSuffix_chatlogEnd_witness :
    (∃ i, OccursAt chatlogOpen helloDoc i) ∧
    buildPrefixAndSuffix helloDoc
      = .ok { prefix_ := lit "<html><div class=\"chatlog\">",
              suffix := lit "</div><div class=postamble>bye</div></html>",
              chatlogOpenEnd := 27, chatlogEnd := 32 } ∧
    ∃ env chatlogStart, buildPrefixAndSuffix helloDoc = .ok env ∧
      (OccursAt chatlogOpen helloDoc chatlogStart ∧
        ∀ q < chatlogStart, ¬ OccursAt chatlogOpen helloDoc q) ∧
      env.chatlogOpenEnd = chatlogStart + chatlogOpen.length ∧
      ((OccursAt postamble helloDoc env.chatlogEnd ∧
          ∀ q < env.chatlogEnd, ¬ OccursAt postamble helloDoc q) ∨
        (env.chatlogEnd = helloDoc.length ∧ ∀ q, ¬ OccursAt postamble helloDoc q)) ∧
      (env.chatlogOpenEnd ≤ env.chatlogEnd ↔
        ∀ q < chatlogStart, ¬ OccursAt postamble helloDoc q) :=
  ⟨⟨6, by decide⟩, rfl, buildPrefixAndSuffix_chatlogEnd helloDoc ⟨6, by decide⟩⟩

/-- C5, counterexample: the document holds both markers, yet `prefix`, the full container
body and `suffix` put together are the document with `</div>` inserted before the end
marker, six units longer than the document. -/
theorem buildPrefixAndSuffix_roundtrip_counterexample :
    (∃ i, OccursAt chatlogOpen helloDoc i) ∧ (∃ j, OccursAt postamble helloDoc j) ∧
    buildPrefixAndSuffix helloDoc
      = .ok { prefix_ := lit "<html><div class=\"chatlog\">",
              suffix := lit "</div><div class=postamble>bye</div></html>",
              chatlogOpenEnd := 27, chatlogEnd := 32 } ∧
    lit "<html><div class=\"chatlog\">" ++ slice helloDoc 27 32
        ++ lit "</div><div class=postamble>bye</div></html>"
      = lit "<html><div class=\"chatlog\">hello</div><div class=postamble>bye</div></html>" ∧
    lit "<html><div class=\"chatlog\">" ++ slice helloDoc 27 32
        ++ lit "</div><div class=postamble>bye</div></html>" ≠ helloDoc := by
  refine ⟨⟨6, by decide⟩, ⟨32, by decide⟩, rfl, by decide, by decide⟩

/-- C5, as amended: when `buildPrefixAndSuffix` returns with `chatlogOpenEnd ≤ chatlogEnd`
(no end marker before the container-open marker), `prefix`, the container body
`html.slice(chatlogOpenEnd, chatlogEnd)` and `suffix` put together are the document with the
closing `</div>` inserted at offset `chatlogEnd`; the document itself is what remains once
that `</div>` is taken off the front of `suffix`. -/
theorem buildPrefixAndSuffix_roundtrip (html : JSString) (env : Envelope)
    (hb : buildPrefixAndSuffix html = .ok env) (hord : env.chatlogOpenEnd ≤ env.chatlogEnd) :
    env.prefix_ ++ slice html env.chatlogOpenEnd env.chatlogEnd ++ env.suffix
        = slice html 0 env.chatlogEnd ++ lit "</div>" ++ sliceFrom html env.chatlogEnd ∧
    env.suffix.take 6 = lit "</div>" ∧
    env.prefix_ ++ slice html env.chatlogOpenEnd env.chatlogEnd ++ env.suffix.drop 6
        = html := by
  obtain ⟨cs, -, -, -, hpre, hsuf⟩ := buildPrefixAndSuffix_ok hb
  have hbody : env.prefix_ ++ slice html env.chatlogOpenEnd env.chatlogEnd
      = html.take env.chatlogEnd := by
    rw [hpre]
    simp only [slice, List.drop_zero]
    have h1 : html.take env.chatlogOpenEnd
        = (html.take env.chatlogEnd).take env.chatlogOpenEnd := by
      rw [List.take_take, Nat.min_eq_left hord]
    rw [h1]
    exact List.take_append_drop _ _
  have h6 : (lit "</div>").length = 6 := by decide
  refine ⟨?_, ?_, ?_⟩
  · rw [hbody, hsuf]
    simp [slice, sliceFrom]
  · rw [hsuf, List.take_left' h6]
  · rw [hbody, hsuf, List.drop_left' h6]
    exact List.take_append_drop _ _

theorem buildPrefixAndSuffix_roundtrip_witness :
    buildPrefixAndSuffix helloDoc
      = .ok { prefix_ := lit "<html><div class=\"chatlog\">",
              suffix := lit "</div><div class=postamble>bye</div></html>",
              chatlogOpenEnd := 27, chatlogEnd := 32 } ∧
    (27 : Nat) ≤ 32 ∧
    lit "<html><div class=\"chatlog\">" ++ slice helloDoc 27 32
        ++ (lit "</div><div class=postamble>bye</div></html>").drop 6 = helloDoc :=
  ⟨rfl, by decide,
   (buildPrefixAndSuffix_roundtrip helloDoc
      { prefix_ := lit "<html><div class=\"chatlog\">",
        suffix := lit "</div><div class=postamble>bye</div></html>",
        chatlogOpenEnd := 27, chatlogEnd := 32 } rfl (by decide)).2.2⟩

/-! ## Output names -/

theorem numberToStringAux_digits :
    ∀ (fuel n : Nat) (acc : JSString) (c : Nat), c ∈ numberToStringAux fuel n acc →
      c ∈ acc ∨ isDigit c = true := by
  intro fuel
  induction fuel with
  | zero => intro n acc c h; exact Or.inl h
  | succ fuel ih =>
    intro n acc c h
    simp only [numberToStringAux] at h
    have hd : isDigit (48 + n % 10) = true := by
      have : n % 10 < 10 := Nat.mod_lt _ (by decide)
      simp only [isDigit, Bool.and_eq_true, decide_eq_true_eq]
      omega
    split at h
    · rcases List.mem_cons.mp h with rfl | h
      · exact Or.inr hd
      · exact Or.inl h
    · rcases ih _ _ _ h with h | h
      · rcases List.mem_cons.mp h with rfl | h
        · exact Or.inr hd
        · exact Or.inl h
      · exact Or.inr h

/-- Every unit of a rendered number is a decimal digit. -/
theorem numberToString_digits (n c : Nat) (h : c ∈ numberToString n) : isDigit c = true := by
  rcases numberToStringAux_digits _ _ _ _ h with h | h
  · simp at h
  · exact h

theorem numberToStringAux_foldl :
    ∀ (fuel n : Nat) (acc : JSString), n < fuel →
      (numberToStringAux fuel n acc).foldl (fun v c => 10 * v + (c - 48)) 0
        = acc.foldl (fun v c => 10 * v + (c - 48)) n := by
  intro fuel
  induction fuel with
  | zero => intro n acc h; omega
  | succ fuel ih =>
    intro n acc h
    simp only [numberToStringAux]
    split
    · rename_i h0
      have e : 10 * 0 + (48 + n % 10 - 48) = n := by omega
      simp only [List.foldl_cons, e]
    · rename_i h0
      rw [ih (n / 10) _ (by omega)]
      have e : 10 * (n / 10) + (48 + n % 10 - 48) = n := by omega
      simp only [List.foldl_cons, e]

/-- A rendered number denotes the number it renders. -/
theorem decimalValue_numberToString (n : Nat) : decimalValue (numberToString n) = n := by
  unfold decimalValue numberToString
  rw [numberToStringAux_foldl _ _ _ (by omega)]
  rfl

/-- Two strings that continue with `x` after a stretch free of `x` agree on that stretch. -/
theorem eq_of_append_cons_eq {x : Nat} :
    ∀ (l₁ l₂ r₁ r₂ : JSString), x ∉ l₁ → x ∉ l₂ → l₁ ++ x :: r₁ = l₂ ++ x :: r₂ →
      l₁ = l₂ := by
  intro l₁
  induction l₁ with
  | nil =>
    intro l₂ r₁ r₂ _ h2 h
    cases l₂ with
    | nil => rfl
    | cons b l₂ =>
      simp only [List.nil_append, List.cons_append, List.cons.injEq] at h
      exact absurd (h.1 ▸ List.mem_cons_self _ _) h2
  | cons a l₁ ih =>
    intro l₂ r₁ r₂ h1 h2 h
    cases l₂ with
    | nil =>
      simp only [List.nil_append, List.cons_append, List.cons.injEq] at h
      exact absurd (h.1 ▸ List.mem_cons_self _ _) h1
    | cons b l₂ =>
      simp only [List.cons_append, List.cons.injEq] at h
      rw [h.1, ih l₂ r₁ r₂ (fun hm => h1 (List.mem_cons_of_mem _ hm))
        (fun hm => h2 (List.mem_cons_of_mem _ hm)) h.2]

/-- C10: the names `writeContextFile` builds for two different match indices differ, whatever
the two ids are (equal ids included), so no extract written in a run replaces another. -/
theorem filename_ne_of_index_ne (i j : Nat) (a b : JSString) (hij : i ≠ j) :
    filename i a ≠ filename j b := by
  intro h
  unfold filename at h
  simp only [List.append_assoc] at h
  have h1 := List.append_cancel_left h
  have hdash : lit "-" ++ (a ++ lit ".html") = 45 :: (a ++ lit ".html") := rfl
  have hdash2 : lit "-" ++ (b ++ lit ".html") = 45 :: (b ++ lit ".html") := rfl
  rw [hdash, hdash2] at h1
  have hn : ∀ n, (45 : Nat) ∉ numberToString n := by
    intro n hm
    have := numberToString_digits n 45 hm
    simp [isDigit] at this
  have h2 := eq_of_append_cons_eq _ _ _ _ (hn _) (hn _) h1
  have h3 := congrArg decimalValue h2
  rw [decimalValue_numberToString, decimalValue_numberToString] at h3
  omega

theorem filename_ne_of_index_ne_witness :
    (0 : Nat) ≠ 1 ∧ filename 0 (lit "42") = lit "context-1-42.html" ∧
    filename 1 (lit "42") = lit "context-2-42.html" ∧
    filename 0 (lit "42") ≠ filename 1 (lit "42") :=
  ⟨by decide, by decide, by decide, filename_ne_of_index_ne 0 1 (lit "42") (lit "42") (by decide)⟩

/-! ## The message descriptors -/

/-- When `extractMessages` returns, it returns the image of the scanned starts. -/
theorem extractMessages_ok {toLowerCase : JSString → JSString} {html : JSString}
    {startSearchAt chatlogEnd : Nat} {msgs : List Message}
    (h : extractMessages toLowerCase html startSearchAt chatlogEnd = .ok msgs) :
    scanStarts html (html.length + 1) startSearchAt ≠ [] ∧
    msgs = (scanStarts html (html.length + 1) startSearchAt).enum.map fun p =>
      mkMessage toLowerCase html (scanStarts html (html.length + 1) startSearchAt)
        chatlogEnd p.2 p.1 := by
  unfold extractMessages at h
  simp only at h
  split at h
  · cases h
  · rename_i hne
    cases h
    exact ⟨fun h0 => hne (by rw [h0]; rfl), rfl⟩

theorem extractMessages_map_pos {toLowerCase : JSString → JSString} {html : JSString}
    {startSearchAt chatlogEnd : Nat} {msgs : List Message}
    (h : extractMessages toLowerCase html startSearchAt chatlogEnd = .ok msgs) :
    msgs.map (fun m => m.pos) = scanStarts html (html.length + 1) startSearchAt := by
  obtain ⟨-, rfl⟩ := extractMessages_ok h
  rw [List.map_map]
  exact List.enum_map_snd _

theorem extractMessages_getElem? {toLowerCase : JSString → JSString} {html : JSString}
    {startSearchAt chatlogEnd : Nat} {msgs : List Message}
    (h : extractMessages toLowerCase html startSearchAt chatlogEnd = .ok msgs) (i : Nat) :
    msgs[i]? = (scanStarts html (html.length + 1) startSearchAt)[i]?.map fun pos =>
      mkMessage toLowerCase html (scanStarts html (html.length + 1) startSearchAt)
        chatlogEnd pos i := by
  obtain ⟨-, rfl⟩ := extractMessages_ok h
  rw [List.getElem?_map, List.getElem?_enum]
  cases (scanStarts html (html.length + 1) startSearchAt)[i]? <;> rfl

theorem extractMessages_length {toLowerCase : JSString → JSString} {html : JSString}
    {startSearchAt chatlogEnd : Nat} {msgs : List Message}
    (h : extractMessages toLowerCase html startSearchAt chatlogEnd = .ok msgs) :
    msgs.length = (scanStarts html (html.length + 1) startSearchAt).length := by
  rw [← extractMessages_map_pos h, List.length_map]

/-- The offsets of a descriptor: `pos` is its start, `end` is the next start or, for the last
descriptor, `chatlogEnd`. -/
theorem extractMessages_offsets {toLowerCase : JSString → JSString} {html : JSString}
    {startSearchAt chatlogEnd : Nat} {msgs : List Message}
    (h : extractMessages toLowerCase html startSearchAt chatlogEnd = .ok msgs)
    {i : Nat} {m : Message} (hm : msgs[i]? = some m) :
    (scanStarts html (html.length + 1) startSearchAt)[i]? = some m.pos ∧
    (i + 1 < msgs.length →
      (scanStarts html (html.length + 1) startSearchAt)[i + 1]? = some m.end_) ∧
    (¬ i + 1 < msgs.length → m.end_ = chatlogEnd) := by
  have hlen := extractMessages_length h
  rw [extractMessages_getElem? h] at hm
  cases hs : (scanStarts html (html.length + 1) startSearchAt)[i]? with
  | none => rw [hs] at hm; cases hm
  | some pos =>
    rw [hs] at hm
    cases hm
    refine ⟨rfl, ?_, ?_⟩
    · intro hlt
      rw [hlen] at hlt
      simp only [mkMessage, hlt, if_true]
      rw [List.getD_eq_getElem?_getD, List.getElem?_eq_getElem hlt]
      rfl
    · intro hlt
      rw [hlen] at hlt
      simp only [mkMessage, hlt, if_false]

/-- C8, counterexample: no message marker lies in `[chatlogOpenEnd, chatlogEnd) = [21, 27)`,
yet `extractMessages` does not fail: it returns a descriptor for the marker at offset 48,
beyond `chatlogEnd`. -/
theorem extractMessages_error_counterexample :
    buildPrefixAndSuffix emptyChatlogDoc
      = .ok { prefix_ := lit "<div class=\"chatlog\">",
              suffix := lit ("</div><div class=postamble>"
                ++ "<div id=chatlog__message-container-7>x</div></div>"),
              chatlogOpenEnd := 21, chatlogEnd := 27 } ∧
    (∀ p < emptyChatlogDoc.length, 21 ≤ p → p < 27 → ¬ OccursAt token emptyChatlogDoc p) ∧
    extractMessages asciiToLowerCase emptyChatlogDoc 21 27
      = .ok [{ pos := 48, end_ := 27, snippet := [], id := lit "unknown-0",
               hasGroupOpen := false, hasLitematic := false }] ∧
    ¬ (48 < 27) ∧
    extractMessages asciiToLowerCase emptyChatlogDoc 21 27
      ≠ .error "No messages found in the export." := by
  have h : extractMessages asciiToLowerCase emptyChatlogDoc 21 27
      = .ok [{ pos := 48, end_ := 27, snippet := [], id := lit "unknown-0",
               hasGroupOpen := false, hasLitematic := false }] := by rfl
  refine ⟨by rfl, by decide, h, by decide, ?_⟩
  rw [h]
  intro hc
  cases hc

/-- C8, as amended: `extractMessages` fails with `No messages found in the export.` exactly
when the message marker has no occurrence at or after `startSearchAt` in the whole document
(`chatlogEnd` does not bound the scan); otherwise it returns a non-empty array with exactly one
descriptor per occurrence at or after `startSearchAt`, in document order, every `pos` with
`startSearchAt ≤ pos` and `pos + token.length ≤ html.length`. -/
theorem extractMessages_error_iff (toLowerCase : JSString → JSString) (html : JSString)
    (startSearchAt chatlogEnd : Nat) :
    (extractMessages toLowerCase html startSearchAt chatlogEnd
        = .error "No messages found in the export." ↔
      ∀ p, startSearchAt ≤ p → ¬ OccursAt token html p) ∧
    ((∃ msgs, extractMessages toLowerCase html startSearchAt chatlogEnd = .ok msgs ∧
        msgs ≠ [] ∧ (msgs.map fun m => m.pos).Pairwise (· < ·) ∧
        (∀ p, p ∈ msgs.map (fun m => m.pos) ↔ startSearchAt ≤ p ∧ OccursAt token html p) ∧
        ∀ m ∈ msgs, startSearchAt ≤ m.pos ∧ m.pos + token.length ≤ html.length) ∨
      extractMessages toLowerCase html startSearchAt chatlogEnd
        = .error "No messages found in the export.") := by
  cases hs : scanStarts html (html.length + 1) startSearchAt with
  | nil =>
    have herr : extractMessages toLowerCase html startSearchAt chatlogEnd
        = .error "No messages found in the export." := by
      simp [extractMessages, hs]
    refine ⟨⟨fun _ p hp hocc => ?_, fun _ => herr⟩, Or.inr herr⟩
    have := (mem_scanStarts_iff html startSearchAt p).mpr ⟨hp, hocc⟩
    rw [hs] at this
    cases this
  | cons a rest =>
    have hok : ∃ msgs, extractMessages toLowerCase html startSearchAt chatlogEnd
        = .ok msgs := by
      simp [extractMessages, hs]
    obtain ⟨msgs, hmsgs⟩ := hok
    have hpos := extractMessages_map_pos hmsgs
    have hmem : a ∈ scanStarts html (html.length + 1) startSearchAt := by
      rw [hs]; exact List.mem_cons_self _ _
    refine ⟨⟨fun herr => ?_, fun hno => ?_⟩, Or.inl ⟨msgs, hmsgs, ?_, ?_, ?_, ?_⟩⟩
    · rw [hmsgs] at herr
      cases herr
    · have := (mem_scanStarts_iff html startSearchAt a).mp hmem
      exact absurd this.2 (hno a this.1)
    · intro h0
      rw [h0, hs] at hpos
      cases hpos
    · rw [hpos]
      exact scanStarts_pairwise html _ _
    · intro p
      rw [hpos]
      exact mem_scanStarts_iff html startSearchAt p
    · intro m hm
      have h1 : m.pos ∈ msgs.map (fun m => m.pos) := List.mem_map_of_mem _ hm
      rw [hpos] at h1
      obtain ⟨h2, h3⟩ := (mem_scanStarts_iff html startSearchAt m.pos).mp h1
      exact ⟨h2, occursAt_length_le token_ne_nil h3⟩

theorem pairwise_getElem?_lt {l : List Nat} (hp : l.Pairwise (· < ·)) {i j x y : Nat}
    (hi : l[i]? = some x) (hj : l[j]? = some y) (hij : i < j) : x < y := by
  obtain ⟨h1, rfl⟩ := List.getElem?_eq_some.mp hi
  obtain ⟨h2, rfl⟩ := List.getElem?_eq_some.mp hj
  exact List.pairwise_iff_getElem.mp hp i j h1 h2 hij

/-- A descriptor lies at an occurrence of the marker at or after `startSearchAt`. -/
theorem extractMessages_pos_occurs {toLowerCase : JSString → JSString} {html : JSString}
    {startSearchAt chatlogEnd : Nat} {msgs : List Message}
    (h : extractMessages toLowerCase html startSearchAt chatlogEnd = .ok msgs)
    {i : Nat} {m : Message} (hm : msgs[i]? = some m) :
    startSearchAt ≤ m.pos ∧ OccursAt token html m.pos := by
  have h1 := (extractMessages_offsets h hm).1
  exact (mem_scanStarts_iff html startSearchAt m.pos).mp (List.mem_iff_getElem?.mpr ⟨i, h1⟩)

/-- C1, counterexample: `buildPrefixAndSuffix` and `extractMessages` both return, but the
marker inside the postamble gives a last descriptor with `pos = 94` beyond its
`end = chatlogEnd = 73`, and the first descriptor ends at 94, beyond `chatlogEnd`. -/
theorem extractMessages_partition_counterexample :
    (buildPrefixAndSuffix strayMarkerDoc).map (fun env => (env.chatlogOpenEnd, env.chatlogEnd))
      = .ok (21, 73) ∧
    (extractMessages asciiToLowerCase strayMarkerDoc 21 73).map
        (List.map fun m => (m.pos, m.end_))
      = .ok [(21, 94), (94, 73)] ∧
    ¬ (94 < 73) := by
  refine ⟨by rfl, by rfl, by decide⟩

/-- C1, as amended: when `extractMessages` returns (in particular on the offsets
`buildPrefixAndSuffix` supplies), the array is non-empty, `pos` is strictly increasing, every
descriptor but the last ends where the next begins and has `pos < end`, and the last one ends
at `chatlogEnd`; all descriptors have `pos < end`, so that they partition
`[messages[0].pos, chatlogEnd)`, exactly when no message marker occurs at or after
`chatlogEnd`. -/
theorem extractMessages_partition (toLowerCase : JSString → JSString) (html : JSString)
    (startSearchAt chatlogEnd : Nat) (msgs : List Message)
    (h : extractMessages toLowerCase html startSearchAt chatlogEnd = .ok msgs) :
    msgs ≠ [] ∧ (msgs.map fun m => m.pos).Pairwise (· < ·) ∧
    (∀ i a b, msgs[i]? = some a → msgs[i + 1]? = some b →
      a.end_ = b.pos ∧ a.pos < a.end_) ∧
    (∀ m, msgs.getLast? = some m → m.end_ = chatlogEnd) ∧
    ((∀ m ∈ msgs, m.pos < m.end_) ↔ ∀ p, chatlogEnd ≤ p → ¬ OccursAt token html p) := by
  have hpos := extractMessages_map_pos h
  have hpw := scanStarts_pairwise html (html.length + 1) startSearchAt
  have hne : msgs ≠ [] := by
    intro h0
    have := (extractMessages_ok h).1
    rw [h0] at hpos
    exact this hpos.symm
  have hlenpos : 0 < msgs.length := List.length_pos.mpr hne
  have hcons : ∀ i a b, msgs[i]? = some a → msgs[i + 1]? = some b →
      a.end_ = b.pos ∧ a.pos < a.end_ := by
    intro i a b ha hb
    obtain ⟨hlt, -⟩ := List.getElem?_eq_some.mp hb
    obtain ⟨ha1, ha2, -⟩ := extractMessages_offsets h ha
    obtain ⟨hb1, -, -⟩ := extractMessages_offsets h hb
    have e := ha2 hlt
    rw [hb1] at e
    have e2 : b.pos = a.end_ := Option.some.inj e
    exact ⟨e2.symm, e2 ▸ pairwise_getElem?_lt hpw ha1 hb1 (Nat.lt_succ_self i)⟩
  have hlast : ∀ m, msgs.getLast? = some m → m.end_ = chatlogEnd := by
    intro m hm
    rw [List.getLast?_eq_getElem?] at hm
    exact (extractMessages_offsets h hm).2.2 (by omega)
  refine ⟨hne, hpos ▸ hpw, hcons, hlast, ?_, ?_⟩
  · intro hall p hp hocc
    -- the last descriptor starts before `chatlogEnd`, and `p` would be a later start
    have hl : msgs[msgs.length - 1]? = some msgs[msgs.length - 1] :=
      List.getElem?_eq_getElem (by omega)
    have h1 := hall _ (List.getElem_mem (show msgs.length - 1 < msgs.length by omega))
    have h2 := (extractMessages_offsets h hl).2.2 (by omega)
    have h3 := extractMessages_pos_occurs h hl
    have hmem : p ∈ scanStarts html (html.length + 1) startSearchAt :=
      (mem_scanStarts_iff html startSearchAt p).mpr ⟨by omega, hocc⟩
    obtain ⟨j, hj⟩ := List.mem_iff_getElem?.mp hmem
    have hjlt : j < msgs.length := by
      rw [extractMessages_length h]
      exact (List.getElem?_eq_some.mp hj).1
    have h4 := (extractMessages_offsets h hl).1
    rcases Nat.eq_or_lt_of_le (show j ≤ msgs.length - 1 by omega) with e | hlt
    · rw [e, h4] at hj
      have := Option.some.inj hj
      omega
    · have := pairwise_getElem?_lt hpw hj h4 hlt
      omega
  · intro hclean m hm
    obtain ⟨i, hi⟩ := List.mem_iff_getElem?.mp hm
    by_cases hlt : i + 1 < msgs.length
    · exact (hcons i m _ hi (List.getElem?_eq_getElem hlt)).2
    · have h2 := (extractMessages_offsets h hi).2.2 hlt
      have h3 := (extractMessages_pos_occurs h hi).2
      rw [h2]
      by_contra hge
      exact hclean m.pos (by omega) h3

theorem extractMessages_partition_witness :
    extractMessages asciiToLowerCase helloMessagesDoc 21 128 = .ok helloMessages ∧
    ((∀ m ∈ helloMessages, m.pos < m.end_) ↔
      ∀ p, 128 ≤ p → ¬ OccursAt token helloMessagesDoc p) :=
  ⟨by rfl,
   (extractMessages_partition asciiToLowerCase helloMessagesDoc 21 128 helloMessages
      (by rfl)).2.2.2.2⟩

/-- The starts of the descriptors increase with the index. -/
theorem extractMessages_pos_lt {toLowerCase : JSString → JSString} {html : JSString}
    {startSearchAt chatlogEnd : Nat} {msgs : List Message}
    (h : extractMessages toLowerCase html startSearchAt chatlogEnd = .ok msgs)
    {i j : Nat} {a b : Message} (ha : msgs[i]? = some a) (hb : msgs[j]? = some b)
    (hij : i < j) : a.pos < b.pos :=
  pairwise_getElem?_lt (scanStarts_pairwise html (html.length + 1) startSearchAt)
    (extractMessages_offsets h ha).1 (extractMessages_offsets h hb).1 hij

/-- C2, counterexample: for the last record of `strayMarkerDoc`, which starts at offset 94
inside the postamble, the window ends at `sliceEnd = chatlogEnd = 73`, so
`messages[t].pos < sliceEnd` fails. -/
theorem windowForMessage_covers_counterexample :
    (buildPrefixAndSuffix strayMarkerDoc).map (fun env => (env.chatlogOpenEnd, env.chatlogEnd))
      = .ok (21, 73) ∧
    extractMessages asciiToLowerCase strayMarkerDoc 21 73 = .ok strayMessages ∧
    1 < strayMessages.length ∧
    windowForMessage strayMessages 1 73
      = .ok { sliceStart := 21, sliceEnd := 73, start := 0, end_ := 1 } ∧
    strayMessages[1]?.map (fun m => m.pos) = some 94 ∧ ¬ (94 < 73) := by
  refine ⟨by rfl, by rfl, by decide, by rfl, by rfl, by decide⟩

/-- C2, as amended: for descriptors returned by `extractMessages` and a target index `t` in
range, `windowForMessage` returns with `sliceStart ≤ messages[t].pos`; and
`messages[t].pos < sliceEnd` holds exactly when the window stops before the last record
(`t + WINDOW + 1 < messages.length`) or `messages[t].pos < chatlogEnd`, hence whenever no
message marker occurs at or after `chatlogEnd`. -/
theorem windowForMessage_covers (toLowerCase : JSString → JSString) (html : JSString)
    (startSearchAt chatlogEnd : Nat) (msgs : List Message) (t : Nat)
    (h : extractMessages toLowerCase html startSearchAt chatlogEnd = .ok msgs)
    (ht : t < msgs.length) :
    ∃ w m, windowForMessage msgs t chatlogEnd = .ok w ∧ msgs[t]? = some m ∧
      w.sliceStart ≤ m.pos ∧
      (m.pos < w.sliceEnd ↔ (t + WINDOW + 1 < msgs.length ∨ m.pos < chatlogEnd)) ∧
      ((∀ p, chatlogEnd ≤ p → ¬ OccursAt token html p) → m.pos < w.sliceEnd) := by
  obtain ⟨w, first, h1, h2, h3, h4, -, h6, h7⟩ := windowForMessage_ok msgs t chatlogEnd ht
  obtain ⟨r, h8, hle, -, -⟩ := alignStart_spec msgs (t - WINDOW) (by omega)
  rw [h2] at h8
  cases h8
  have hm : msgs[t]? = some msgs[t] := List.getElem?_eq_getElem ht
  have hstart : w.sliceStart ≤ msgs[t].pos := by
    rw [h4]
    rcases Nat.eq_or_lt_of_le (show w.start ≤ t by omega) with e | hlt
    · rw [e, hm] at h3
      rw [← Option.some.inj h3]
    · exact Nat.le_of_lt (extractMessages_pos_lt h h3 hm hlt)
  have hiff : msgs[t].pos < w.sliceEnd ↔
      (t + WINDOW + 1 < msgs.length ∨ msgs[t].pos < chatlogEnd) := by
    by_cases hc : t + WINDOW + 1 < msgs.length
    · obtain ⟨next, hn1, hn2⟩ := h6 hc
      have := extractMessages_pos_lt h hm hn1 (by omega)
      rw [hn2]
      exact ⟨fun _ => Or.inl hc, fun _ => this⟩
    · rw [h7 hc]
      exact ⟨fun hl => Or.inr hl, fun ho => ho.resolve_left hc⟩
  refine ⟨w, msgs[t], h1, hm, hstart, hiff, ?_⟩
  intro hclean
  apply hiff.mpr
  by_cases hc : t + WINDOW + 1 < msgs.length
  · exact Or.inl hc
  · refine Or.inr ?_
    by_contra hge
    exact hclean _ (by omega) (extractMessages_pos_occurs h hm).2

theorem windowForMessage_covers_witness :
    extractMessages asciiToLowerCase helloMessagesDoc 21 128 = .ok helloMessages ∧
    1 < helloMessages.length ∧
    windowForMessage helloMessages 1 128
      = .ok { sliceStart := 21, sliceEnd := 128, start := 0, end_ := 1 } ∧
    ∃ w m, windowForMessage helloMessages 1 128 = .ok w ∧ helloMessages[1]? = some m ∧
      w.sliceStart ≤ m.pos ∧
      (m.pos < w.sliceEnd ↔ (1 + WINDOW + 1 < helloMessages.length ∨ m.pos < 128)) ∧
      ((∀ p, 128 ≤ p → ¬ OccursAt token helloMessagesDoc p) → m.pos < w.sliceEnd) :=
  ⟨by rfl, by decide, by rfl,
   windowForMessage_covers asciiToLowerCase helloMessagesDoc 21 128 helloMessages 1
     (by rfl) (by decide)⟩

/-! ## The id of a descriptor -/

theorem idLiteral_length : idLiteral.length = 30 := by decide

theorem takeWhile_isDigit_eq_nil_iff (l : JSString) :
    l.takeWhile isDigit = [] ↔ ¬ ∃ c, l[0]? = some c ∧ isDigit c = true := by
  cases l with
  | nil => simp
  | cons a l =>
    cases ha : isDigit a <;> simp [List.takeWhile, ha]

theorem matchIdAt_none {s : JSString} (h : matchIdAt s = none) : ¬ MatchesIdAt s 0 := by
  rintro ⟨hocc, c, hc, hd⟩
  unfold matchIdAt at h
  have hp : idLiteral.isPrefixOf s = true :=
    List.isPrefixOf_iff_prefix.mpr (by simpa [OccursAt] using hocc)
  simp only [hp, if_true] at h
  split at h
  · rename_i hnil
    refine (takeWhile_isDigit_eq_nil_iff _).mp hnil ⟨c, ?_, hd⟩
    rw [List.getElem?_drop]
    simpa using hc
  · cases h

theorem matchIdAt_some {s ds : JSString} (h : matchIdAt s = some ds) :
    MatchesIdAt s 0 ∧ ds = (s.drop idLiteral.length).takeWhile isDigit ∧ ds ≠ [] := by
  unfold matchIdAt at h
  split at h
  · rename_i hp
    simp only at h
    split at h
    · cases h
    · rename_i hne
      cases h
      refine ⟨⟨by simpa [OccursAt] using List.isPrefixOf_iff_prefix.mp hp, ?_⟩, rfl, hne⟩
      have := (takeWhile_isDigit_eq_nil_iff _).not.mp hne
      obtain ⟨c, hc, hd⟩ := not_not.mp this
      rw [List.getElem?_drop] at hc
      exact ⟨c, by simpa using hc, hd⟩
  · cases h

theorem matchesIdAt_nil (k : Nat) : ¬ MatchesIdAt [] k := by
  rintro ⟨-, c, hc, -⟩
  simp at hc

theorem matchesIdAt_cons_succ (a : Nat) (s : JSString) (k : Nat) :
    MatchesIdAt (a :: s) (k + 1) ↔ MatchesIdAt s k := by
  unfold MatchesIdAt OccursAt
  have e : k + 1 + idLiteral.length = (k + idLiteral.length) + 1 := by omega
  rw [e, List.getElem?_cons_succ, List.drop_succ_cons]

/-- When the pattern matches nowhere, `match` returns `null`. -/
theorem matchId_none : ∀ (s : JSString), matchId s = none → ∀ k, ¬ MatchesIdAt s k := by
  intro s
  induction s with
  | nil => intro _ k; exact matchesIdAt_nil k
  | cons a s ih =>
    intro h k
    simp only [matchId] at h
    split at h
    · cases h
    · rename_i hn
      cases k with
      | zero => exact matchIdAt_none hn
      | succ k =>
        rw [matchesIdAt_cons_succ]
        exact ih h k

/-- When `match` succeeds, the capture is the digit run of the leftmost match. -/
theorem matchId_some : ∀ (s ds : JSString), matchId s = some ds →
    ∃ k, MatchesIdAt s k ∧ (∀ j < k, ¬ MatchesIdAt s j) ∧
      ds = (s.drop (k + idLiteral.length)).takeWhile isDigit ∧ ds ≠ [] := by
  intro s
  induction s with
  | nil => intro ds h; simp [matchId] at h
  | cons a s ih =>
    intro ds h
    simp only [matchId] at h
    split at h
    · rename_i ds0 hs
      cases h
      obtain ⟨h1, h2, h3⟩ := matchIdAt_some hs
      exact ⟨0, h1, fun j hj => by omega, by simpa using h2, h3⟩
    · rename_i hn
      obtain ⟨k, h1, h2, h3, h4⟩ := ih ds h
      refine ⟨k + 1, (matchesIdAt_cons_succ a s k).mpr h1, ?_, ?_, h4⟩
      · intro j hj
        cases j with
        | zero => exact matchIdAt_none hn
        | succ j =>
          rw [matchesIdAt_cons_succ]
          exact h2 j (by omega)
      · have e : k + 1 + idLiteral.length = (k + idLiteral.length) + 1 := by omega
        rw [e, List.drop_succ_cons]
        exact h3

/-- The leftmost match decides: the capture is its digit run. -/
theorem matchId_of_leftmost {s : JSString} {k : Nat} (hk : MatchesIdAt s k)
    (hmin : ∀ j < k, ¬ MatchesIdAt s j) :
    matchId s = some ((s.drop (k + idLiteral.length)).takeWhile isDigit) ∧
      (s.drop (k + idLiteral.length)).takeWhile isDigit ≠ [] := by
  cases hm : matchId s with
  | none => exact absurd hk (matchId_none s hm k)
  | some ds =>
    obtain ⟨k2, h1, h2, h3, h4⟩ := matchId_some s ds hm
    have e : k2 = k := by
      rcases Nat.lt_trichotomy k2 k with hlt | he | hgt
      · exact absurd h1 (hmin k2 hlt)
      · exact he
      · exact absurd hk (h2 k hgt)
    subst e
    exact ⟨by rw [h3], h3 ▸ h4⟩

/-- Inside the message marker the id literal begins at offset 5 and nowhere before. -/
theorem token_idLiteral :
    token.drop 5 = idLiteral ∧
    ∀ j < 5, ¬ (token[j]? = idLiteral[0]? ∧ token[j + 1]? = idLiteral[1]?) := by decide

/-- In a string that begins with the message marker followed by a digit, the leftmost match of
the id pattern is the one inside that marker. -/
theorem matchesIdAt_of_token {s : JSString} (ht : OccursAt token s 0) {c : Nat}
    (hc : s[token.length]? = some c) (hd : isDigit c = true) :
    MatchesIdAt s 5 ∧ ∀ j < 5, ¬ MatchesIdAt s j := by
  have hl := token_length
  have hl2 := idLiteral_length
  constructor
  · refine ⟨?_, c, ?_, hd⟩
    · obtain ⟨t, ht2⟩ := ht
      rw [List.drop_zero] at ht2
      unfold OccursAt
      rw [← ht2, List.drop_append_of_le_length (by omega), token_idLiteral.1]
      exact List.prefix_append _ _
    · have e : 5 + idLiteral.length = token.length := by omega
      rw [e]
      exact hc
  · rintro j hj ⟨hocc, -⟩
    have a0 := occursAt_getElem? hocc (show 0 < idLiteral.length by omega)
    have a1 := occursAt_getElem? hocc (show 1 < idLiteral.length by omega)
    have b0 := occursAt_getElem? ht (show j < token.length by omega)
    have b1 := occursAt_getElem? ht (show j + 1 < token.length by omega)
    rw [Nat.zero_add] at b0 b1
    rw [Nat.add_zero] at a0
    exact token_idLiteral.2 j hj ⟨b0.symm.trans a0, b1.symm.trans a1⟩

/-- A marker that ends before `b` also opens the slice from its offset to `b`. -/
theorem occursAt_slice {html : JSString} {a b : Nat} (h : OccursAt token html a)
    (hab : a + token.length ≤ b) :
    OccursAt token (slice html a b) 0 ∧
    (slice html a b).drop token.length = slice html (a + token.length) b ∧
    (slice html a b)[token.length]? = (if a + token.length < b then html[a + token.length]?
      else none) := by
  unfold OccursAt at h ⊢
  unfold slice
  refine ⟨?_, ?_, ?_⟩
  · rw [List.drop_zero, List.drop_take]
    exact List.prefix_take_iff.mpr ⟨h, by omega⟩
  · rw [List.drop_drop]
  · rw [List.getElem?_drop]
    split
    · rename_i hlt
      exact List.getElem?_take_of_lt hlt
    · rename_i hge
      apply List.getElem?_eq_none
      rw [List.length_take]
      omega

/-- The `snippet` and `id` fields of a descriptor, in terms of its offsets. -/
theorem extractMessages_fields {toLowerCase : JSString → JSString} {html : JSString}
    {startSearchAt chatlogEnd : Nat} {msgs : List Message}
    (h : extractMessages toLowerCase html startSearchAt chatlogEnd = .ok msgs)
    {i : Nat} {m : Message} (hm : msgs[i]? = some m) :
    m.snippet = slice html m.pos m.end_ ∧
    m.id = (matchId m.snippet).getD (lit "unknown-" ++ numberToString i) := by
  rw [extractMessages_getElem? h] at hm
  cases hs : (scanStarts html (html.length + 1) startSearchAt)[i]? with
  | none => rw [hs] at hm; cases hm
  | some pos =>
    rw [hs] at hm
    cases hm
    refine ⟨rfl, ?_⟩
    simp only [mkMessage]
    split <;> rename_i hmatch <;> rw [hmatch] <;> rfl

/-- C9, counterexample: the marker of record 0 is followed by `x`, not by a digit, yet its id
is `42`, captured further on in the record, not `unknown-0`; the marker of record 1 is followed
by the digit `7`, yet its id is `unknown-1`, its snippet being empty. -/
theorem extractMessages_id_counterexample :
    (buildPrefixAndSuffix malformedIdDoc).map
        (fun env => (env.chatlogOpenEnd, env.chatlogEnd)) = .ok (21, 120) ∧
    (extractMessages asciiToLowerCase malformedIdDoc 21 120).map
        (List.map fun m => (m.pos, m.end_, m.id))
      = .ok [(21, 141, lit "42"), (141, 120, lit "unknown-1")] ∧
    OccursAt token malformedIdDoc 21 ∧ malformedIdDoc[21 + token.length]? = some 120 ∧
    isDigit 120 = false ∧ lit "42" ≠ lit "unknown-0" ∧
    OccursAt token malformedIdDoc 141 ∧ malformedIdDoc[141 + token.length]? = some 55 ∧
    isDigit 55 = true ∧ lit "unknown-1" ≠ lit "7" := by
  refine ⟨by rfl, by rfl, by decide, by rfl, by rfl, by decide, by decide, by rfl, by rfl,
    by decide⟩

/-- C9, as amended: when `extractMessages` returns, the offsets of the descriptors are those of
the scan whatever their ids are, and for the record at index `i`: `snippet` is
`html.slice(pos, end)`; if the id pattern matches nowhere in `snippet`, `id` is `unknown-`
followed by the decimal rendering of `i`; otherwise `id` is the non-empty digit run of the
leftmost match in `snippet`; and when the marker at `pos` is followed, before `end`, by a
digit, `id` is the longest digit run following the marker within
`html.slice(pos, end)`. -/
theorem extractMessages_id (toLowerCase : JSString → JSString) (html : JSString)
    (startSearchAt chatlogEnd : Nat) (msgs : List Message)
    (h : extractMessages toLowerCase html startSearchAt chatlogEnd = .ok msgs) :
    (msgs.map fun m => m.pos) = scanStarts html (html.length + 1) startSearchAt ∧
    ∀ i m, msgs[i]? = some m →
      m.snippet = slice html m.pos m.end_ ∧
      ((∀ k, ¬ MatchesIdAt m.snippet k) → m.id = lit "unknown-" ++ numberToString i) ∧
      (∀ k, MatchesIdAt m.snippet k → (∀ j < k, ¬ MatchesIdAt m.snippet j) →
        m.id = (m.snippet.drop (k + idLiteral.length)).takeWhile isDigit ∧ m.id ≠ []) ∧
      (∀ c, m.pos + token.length < m.end_ → html[m.pos + token.length]? = some c →
        isDigit c = true →
        m.id = (slice html (m.pos + token.length) m.end_).takeWhile isDigit ∧ m.id ≠ []) := by
  refine ⟨extractMessages_map_pos h, ?_⟩
  intro i m hm
  obtain ⟨hsnip, hid⟩ := extractMessages_fields h hm
  have hleft : ∀ k, MatchesIdAt m.snippet k → (∀ j < k, ¬ MatchesIdAt m.snippet j) →
      m.id = (m.snippet.drop (k + idLiteral.length)).takeWhile isDigit ∧ m.id ≠ [] := by
    intro k hk hmin
    obtain ⟨h1, h2⟩ := matchId_of_leftmost hk hmin
    rw [h1] at hid
    have e : m.id = (m.snippet.drop (k + idLiteral.length)).takeWhile isDigit := hid
    exact ⟨e, e ▸ h2⟩
  refine ⟨hsnip, ?_, hleft, ?_⟩
  · intro hno
    cases hmatch : matchId m.snippet with
    | none => rw [hmatch] at hid; exact hid
    | some ds =>
      obtain ⟨k, hk, -⟩ := matchId_some _ _ hmatch
      exact absurd hk (hno k)
  · intro c hlt hc hd
    obtain ⟨h1, h2, h3⟩ := occursAt_slice (extractMessages_pos_occurs h hm).2 (Nat.le_of_lt hlt)
    rw [← hsnip] at h1 h2 h3
    rw [if_pos hlt, hc] at h3
    obtain ⟨h5, hmin⟩ := matchesIdAt_of_token h1 h3 hd
    have := hleft 5 h5 hmin
    have e : 5 + idLiteral.length = token.length := by
      rw [idLiteral_length, token_length]
    rw [e, h2] at this
    exact this

theorem extractMessages_id_witness :
    extractMessages asciiToLowerCase helloMessagesDoc 21 128 = .ok helloMessages ∧
    helloMessages.map (fun m => m.id) = [lit "12", lit "13"] ∧
    (helloMessages.map fun m => m.pos)
      = scanStarts helloMessagesDoc (helloMessagesDoc.length + 1) 21 ∧
    (∀ c, 67 + token.length < 128 → helloMessagesDoc[67 + token.length]? = some c →
      isDigit c = true →
      lit "13" = (slice helloMessagesDoc (67 + token.length) 128).takeWhile isDigit ∧
        lit "13" ≠ []) :=
  ⟨by rfl, by rfl,
   (extractMessages_id asciiToLowerCase helloMessagesDoc 21 128 helloMessages (by rfl)).1,
   ((extractMessages_id asciiToLowerCase helloMessagesDoc 21 128 helloMessages (by rfl)).2 1
      { pos := 67, end_ := 128,
        snippet := lit "<div id=chatlog__message-container-13>a.Litematic</div></div>",
        id := lit "13", hasGroupOpen := false, hasLitematic := true } (by rfl)).2.2.2⟩

end Analyze
